import Mathlib

/-!
# Verification of `learning_system/recommender.py` (`AdvancedRecommender`)

Shallow embedding of the recommendation engine.  Python floats are modelled as
exact unreduced fractions (`Frac`); cosine-similarity values, which involve a
square root, are modelled exactly by the pair `(dot product, product of squared
norms)` (`SimVal`) and compared by cross multiplication, which is valid because
all matrix entries are non-negative.  Django querysets are modelled as Lean
lists in stored (catalog / insertion) order; Python `set`s of small ints are
modelled as ascending duplicate-free lists, matching CPython's iteration order
for small non-negative ints.  `pandas.sort_values(ascending=False)` computes a
stable ascending argsort and reverses it, so it is modelled as a stable
insertion sort followed by `List.reverse`.
-/

namespace Recommender

/-! ## Exact fractions (model of Python floats on the values this code produces) -/

/-- An unreduced fraction `num / den`.  Every fraction built by the embedding
has a positive denominator, so cross-multiplied comparisons agree with the
rational order. -/
structure Frac where
  num : Nat
  den : Nat
deriving DecidableEq, Repr

def Frac.ofNat (n : Nat) : Frac := ⟨n, 1⟩

def Frac.add (a b : Frac) : Frac := ⟨a.num * b.den + b.num * a.den, a.den * b.den⟩

def Frac.mul (a b : Frac) : Frac := ⟨a.num * b.num, a.den * b.den⟩

/-- Value comparison `a < b`, by cross multiplication. -/
def Frac.ltv (a b : Frac) : Bool := a.num * b.den < b.num * a.den

/-- Value comparison `a ≤ b`, by cross multiplication. -/
def Frac.lev (a b : Frac) : Bool := a.num * b.den ≤ b.num * a.den

/-- Value equality, by cross multiplication. -/
def Frac.eqv (a b : Frac) : Bool := a.num * b.den = b.num * a.den

def Frac.isZero (a : Frac) : Bool := a.num = 0

def Frac.sum (l : List Frac) : Frac := l.foldl Frac.add (Frac.ofNat 0)

/-! ## Tags: `tags.split(',')`, `strip()`, `lower()` (ASCII model) -/

/-- A tag / skill label, as a list of characters. -/
abbrev Tag := List Char

def isWS (c : Char) : Bool := c = ' ' || c = '\t' || c = '\n' || c = '\r'

/-- Python `str.strip()` (ASCII whitespace). -/
def trimTag (l : Tag) : Tag := ((l.dropWhile isWS).reverse.dropWhile isWS).reverse

/-- Python `str.lower()` on ASCII letters. -/
def lowerCh (c : Char) : Char :=
  if 'A' ≤ c && c ≤ 'Z' then Char.ofNat (c.toNat + 32) else c

def lowerTag (l : Tag) : Tag := l.map lowerCh

/-- Python `s.split(',')`: `"".split(',') = [""]`, `"a,".split(',') = ["a",""]`. -/
def splitComma : Tag → List Tag
  | [] => [[]]
  | c :: rest =>
    let r := splitComma rest
    if c = ',' then [] :: r
    else
      match r with
      | [] => [[c]]
      | t :: ts => (c :: t) :: ts

/-- `[tag.strip().lower() for tag in course.tags.split(',')]` -/
def parseTags (s : Tag) : List Tag := (splitComma s).map (fun t => lowerTag (trimTag t))

/-! ## Data model (read-only inputs of the engine) -/

/-- A `Course` row: id, title, and the raw comma-separated `tags` string. -/
structure Course where
  id : Nat
  title : Tag
  tags : Tag
deriving DecidableEq, Repr

/-- A `QuizPerformance` row.  The course is reached through the foreign-key
chain `quiz → lesson → course`, which always resolves in the source database,
so the record carries the resolved `Course` directly. -/
structure QuizPerformance where
  student : Nat
  course : Course
  score : Nat
deriving DecidableEq, Repr

/-- An `Engagement` row (`lesson__course` resolved to a course id). -/
structure Engagement where
  student : Nat
  course_id : Nat
  time_spent_seconds : Nat
  completion_status : Tag
deriving DecidableEq, Repr

/-- An `AssessmentResult` row; `skill_scores` is the JSON map skill → score. -/
structure AssessmentResult where
  student : Nat
  skill_scores : List (Tag × Int)
  learning_level : Tag
deriving DecidableEq, Repr

/-- The read snapshot the engine operates on: each list is a queryset in
stored order. -/
structure DB where
  courses : List Course
  performances : List QuizPerformance
  engagements : List Engagement
  assessments : List AssessmentResult
deriving DecidableEq, Repr

/-- `Course.objects.all()[:5]`, as course ids. -/
def fallbackIds (db : DB) : List Nat := (db.courses.take 5).map (·.id)

/-- `Course.objects.filter(id__in=ids)`, returned in stored catalog order,
as course ids. -/
def resolveCourses (db : DB) (ids : List Nat) : List Nat :=
  (db.courses.filter (fun c => c.id ∈ ids)).map (·.id)

/-- Course ids the student has at least one `QuizPerformance` record for
(`values_list('quiz__lesson__course_id', flat=True)`). -/
def attempted (db : DB) (s : Nat) : List Nat :=
  (db.performances.filter (fun p => p.student = s)).map (·.course.id)

/-- `AssessmentResult.objects.filter(student=student).first()`. -/
def assessmentOf (db : DB) (s : Nat) : Option AssessmentResult :=
  (db.assessments.filter (fun a => a.student = s)).head?

/-! ## Python `set` of small ints: ascending duplicate-free list -/

def insertAscU (x : Nat) : List Nat → List Nat
  | [] => [x]
  | y :: l =>
    if x < y then x :: y :: l
    else if x = y then y :: l
    else y :: insertAscU x l

/-- Iteration order of a CPython `set` of small non-negative ints:
ascending, duplicates removed. -/
def setAsc (l : List Nat) : List Nat := l.foldl (fun acc x => insertAscU x acc) []

theorem mem_insertAscU {x z : Nat} : ∀ {l : List Nat},
    z ∈ insertAscU x l ↔ z = x ∨ z ∈ l := by
  intro l
  induction l with
  | nil => simp [insertAscU]
  | cons y l ih =>
    by_cases h1 : x < y
    · simp [insertAscU, h1]
    · by_cases h2 : x = y
      · subst h2
        simp [insertAscU, h1]
      · simp [insertAscU, h1, h2, ih]
        tauto

theorem sorted_insertAscU {x : Nat} : ∀ {l : List Nat},
    l.Pairwise (· < ·) → (insertAscU x l).Pairwise (· < ·) := by
  intro l
  induction l with
  | nil => simp [insertAscU]
  | cons y l ih =>
    intro h
    rcases List.pairwise_cons.mp h with ⟨hy, hl⟩
    by_cases h1 : x < y
    · simp only [insertAscU, if_pos h1]
      refine List.pairwise_cons.mpr ⟨?_, h⟩
      intro z hz
      rcases List.mem_cons.mp hz with rfl | hzl
      · exact h1
      · exact lt_trans h1 (hy z hzl)
    · by_cases h2 : x = y
      · subst h2
        simpa [insertAscU, h1] using h
      · simp only [insertAscU, if_neg h1, if_neg h2]
        refine List.pairwise_cons.mpr ⟨?_, ih hl⟩
        intro z hz
        rcases mem_insertAscU.mp hz with rfl | hzl
        · omega
        · exact hy z hzl

theorem sorted_setAsc (l : List Nat) : (setAsc l).Pairwise (· < ·) := by
  suffices h : ∀ acc : List Nat, acc.Pairwise (· < ·) →
      (l.foldl (fun acc x => insertAscU x acc) acc).Pairwise (· < ·) by
    exact h [] List.Pairwise.nil
  induction l with
  | nil => intro acc hacc; simpa using hacc
  | cons a l ih => intro acc hacc; exact ih _ (sorted_insertAscU hacc)

theorem nodup_setAsc (l : List Nat) : (setAsc l).Nodup :=
  (sorted_setAsc l).imp Nat.ne_of_lt

theorem mem_setAsc {z : Nat} {l : List Nat} : z ∈ setAsc l ↔ z ∈ l := by
  suffices h : ∀ acc : List Nat,
      z ∈ l.foldl (fun acc x => insertAscU x acc) acc ↔ z ∈ acc ∨ z ∈ l by
    simpa using h []
  induction l with
  | nil => intro acc; simp
  | cons a l ih =>
    intro acc
    rw [List.foldl_cons, ih (insertAscU a acc)]
    simp [mem_insertAscU]
    tauto

/-! ## Knowledge graph (`networkx.DiGraph`, `_build_knowledge_graph`) -/

/-- A node key of the graph: course nodes are keyed by the integer course id,
skill nodes by the tag string — disjoint key spaces, as in Python. -/
inductive GNode where
  | course (id : Nat)
  | skill (tag : Tag)
deriving DecidableEq, Repr

/-- Node attributes.  `add_node(course.id, type='course', title=…, tags=…)`
sets all three; `add_node(tag, type='skill')` sets only `ntype`; an endpoint
silently created by `add_edge` would have none. -/
structure NAttrs where
  ntype : Option Tag
  title : Option Tag
  rawTags : Option (List Tag)
deriving DecidableEq, Repr

/-- A directed graph: nodes in insertion order with their attributes, and
edges `(src, dst, weight)`.  `networkx` keeps at most one edge per `(src,
dst)` pair and at most one entry per node key. -/
structure KG where
  nodes : List (GNode × NAttrs)
  edges : List (GNode × GNode × Frac)
deriving DecidableEq, Repr

def KG.empty : KG := ⟨[], []⟩

def KG.hasNode (g : KG) (k : GNode) : Bool := (g.nodes.map (·.1)).contains k

/-- `add_node`: on a fresh key append the node; on an existing key update its
attribute dict (here: all attributes are given, so replace). -/
def KG.addNode (g : KG) (k : GNode) (a : NAttrs) : KG :=
  if g.hasNode k then
    { g with nodes := g.nodes.map (fun p => if p.1 = k then (k, a) else p) }
  else
    { g with nodes := g.nodes ++ [(k, a)] }

def KG.hasEdge (g : KG) (u v : GNode) : Bool :=
  g.edges.any (fun e => e.1 = u && e.2.1 = v)

/-- Create a node with an empty attribute dict unless the key exists
(`add_edge` does this for missing endpoints). -/
def KG.ensureNode (g : KG) (k : GNode) : KG :=
  if g.hasNode k then g else { g with nodes := g.nodes ++ [(k, ⟨none, none, none⟩)] }

/-- `add_edge(u, v, weight=w)`: create missing endpoints (with empty
attribute dict), then insert the edge or overwrite its weight. -/
def KG.addEdge (g : KG) (u v : GNode) (w : Frac) : KG :=
  if ((g.ensureNode u).ensureNode v).hasEdge u v then
    { (g.ensureNode u).ensureNode v with
      edges := ((g.ensureNode u).ensureNode v).edges.map
        (fun e => if e.1 = u ∧ e.2.1 = v then (u, v, w) else e) }
  else
    { (g.ensureNode u).ensureNode v with
      edges := ((g.ensureNode u).ensureNode v).edges ++ [(u, v, w)] }

/-- Attribute lookup `graph.nodes[k]`. -/
def KG.attrsOf (g : KG) (k : GNode) : Option NAttrs :=
  (g.nodes.find? (fun p => p.1 = k)).map (·.2)

/-- `graph.neighbors(k)` on a `DiGraph`: the successors of `k`, i.e. the
targets of its outgoing edges. -/
def KG.successors (g : KG) (k : GNode) : List GNode :=
  (g.edges.filter (fun e => e.1 = k)).map (·.2.1)

/-- `_build_knowledge_graph`: one course node per catalog row (first loop),
then for every parsed tag a skill node (created once) and an edge
course → skill with weight 1.0 (second loop). -/
def buildKG (courses : List Course) : KG :=
  let g0 := courses.foldl
    (fun g c => g.addNode (GNode.course c.id)
      ⟨some ['c','o','u','r','s','e'], some c.title,
       some (if c.tags = [] then [] else splitComma c.tags)⟩)
    KG.empty
  courses.foldl
    (fun g c =>
      if c.tags ≠ [] then
        (parseTags c.tags).foldl
          (fun g t =>
            let g' := if g.hasNode (GNode.skill t) then g
                      else g.addNode (GNode.skill t) ⟨some ['s','k','i','l','l'], none, none⟩
            g'.addEdge (GNode.course c.id) (GNode.skill t) (Frac.ofNat 1))
          g
      else g)
    g0

/-! ## `_calculate_engagement_score` and the user-item matrix -/

/-- `_calculate_engagement_score(student, course)`:
`(total hours) * (completed fraction)`, `0.0` when the student has no
engagement rows for the course. -/
def calcEngagement (db : DB) (student courseId : Nat) : Frac :=
  let engs := db.engagements.filter (fun e => e.student = student && e.course_id = courseId)
  if engs.isEmpty then Frac.ofNat 0
  else
    let total := (engs.map (·.time_spent_seconds)).sum
    let completed := (engs.filter (fun e =>
      e.completion_status = ['c','o','m','p','l','e','t','e','d'])).length
    Frac.mul ⟨total, 3600⟩ ⟨completed, engs.length⟩

/-- One entry of the `data` list the source builds from all
`QuizPerformance` rows. -/
structure Row where
  student_id : Nat
  course_id : Nat
  score : Nat
  engagement : Frac
deriving DecidableEq, Repr

def buildRows (db : DB) : List Row :=
  db.performances.map (fun p =>
    ⟨p.student, p.course.id, p.score, calcEngagement db p.student p.course.id⟩)

/-- `pivot_table` row labels: the distinct student ids, ascending. -/
def matrixIndex (db : DB) : List Nat := setAsc ((buildRows db).map (·.student_id))

/-- `pivot_table` column labels: the distinct course ids, ascending. -/
def matrixCols (db : DB) : List Nat := setAsc ((buildRows db).map (·.course_id))

/-- The data rows aggregated into the cell for student `s` and course `c`. -/
def cellRows (db : DB) (s c : Nat) : List Row :=
  (buildRows db).filter (fun r => r.student_id = s && r.course_id = c)

/-- One cell of the user-item matrix: `pivot_table(values='score',
aggfunc='mean', fill_value=0)` — the mean of the student's scores on the
course, `0` when the student has no record on it. -/
def cell (db : DB) (s c : Nat) : Frac :=
  if (cellRows db s c).isEmpty then Frac.ofNat 0
  else ⟨((cellRows db s c).map (·.score)).sum, (cellRows db s c).length⟩

/-- The row vector of student `s` over the matrix columns. -/
def rowVec (db : DB) (s : Nat) : List Frac := (matrixCols db).map (cell db s)

/-! ## Cosine similarity, exactly -/

def dotF (u v : List Frac) : Frac := Frac.sum (List.zipWith Frac.mul u v)

/-- The exact value of a cosine similarity: `d / sqrt m` with `d = u·v ≥ 0`
and `m = (u·u)(v·v) > 0`; `sklearn` maps a zero-norm vector to the zero
vector, giving similarity `0`, encoded as `⟨0, 1⟩`. -/
structure SimVal where
  d : Frac
  m : Frac
deriving DecidableEq, Repr

def cosSim (u v : List Frac) : SimVal :=
  let nu := dotF u u
  let nv := dotF v v
  if nu.isZero || nv.isZero then ⟨Frac.ofNat 0, Frac.ofNat 1⟩
  else ⟨dotF u v, Frac.mul nu nv⟩

/-- `a ≤ b` on similarity values: `d/√m ≤ d'/√m' ↔ d²·m' ≤ d'²·m`
(all quantities non-negative). -/
def SimVal.lev (a b : SimVal) : Bool :=
  Frac.lev (Frac.mul (Frac.mul a.d a.d) b.m) (Frac.mul (Frac.mul b.d b.d) a.m)

/-- `a < b` on similarity values. -/
def SimVal.ltv (a b : SimVal) : Bool :=
  Frac.ltv (Frac.mul (Frac.mul a.d a.d) b.m) (Frac.mul (Frac.mul b.d b.d) a.m)

/-- `sim > 0.1`: `d/√m > 1/10 ↔ 100·d² > m` (d ≥ 0). -/
def SimVal.gtTenth (a : SimVal) : Bool :=
  Frac.ltv a.m (Frac.mul (Frac.ofNat 100) (Frac.mul a.d a.d))

/-- `sim = 1`: `d/√m = 1 ↔ d² = m` and `d > 0`. -/
def SimVal.isOne (a : SimVal) : Bool :=
  Frac.eqv (Frac.mul a.d a.d) a.m && decide (0 < a.d.num)

/-! ## Stable sort (pandas `sort_values`) -/

/-- Insert `a` before the first element `b` with `le a b`; with a non-strict
comparison this is the classic stable insertion. -/
def insertBy (le : α → α → Bool) (a : α) : List α → List α
  | [] => [a]
  | b :: l => if le a b then a :: b :: l else b :: insertBy le a l

/-- Stable ascending insertion sort: equal elements keep their original
relative order (numpy's small-array `argsort` is insertion sort). -/
def insSortBy (le : α → α → Bool) : List α → List α
  | [] => []
  | a :: l => insertBy le a (insSortBy le l)

/-- Comparison used to sort a similarity column, ascending by value. -/
def pairLe (a b : Nat × SimVal) : Bool := SimVal.lev a.2 b.2

/-- `user_similarity_df[student_id]`: the similarity of every matrix row to
the requester, labelled by student id, in index (ascending-id) order. -/
def simColumn (db : DB) (s : Nat) : List (Nat × SimVal) :=
  (matrixIndex db).map (fun t => (t, cosSim (rowVec db t) (rowVec db s)))

/-- `.sort_values(ascending=False)`: pandas reverses a stable ascending
argsort, so ties come out in reverse index order. -/
def sortedColumn (db : DB) (s : Nat) : List (Nat × SimVal) :=
  (insSortBy pairLe (simColumn db s)).reverse

/-- `similar_students = …sort_values(ascending=False)[1:6]`. -/
def selectedPeers (db : DB) (s : Nat) : List (Nat × SimVal) :=
  ((sortedColumn db s).drop 1).take 5

/-- `student_courses[student_courses > 70].index.tolist()` for one peer. -/
def topCoursesOf (db : DB) (t : Nat) : List Nat :=
  (matrixCols db).filter (fun c => Frac.ltv (Frac.ofNat 70) (cell db t c))

/-- The candidate set pooled from the selected peers with similarity above
the 0.1 threshold (a Python `set` of course ids). -/
def candidateList (db : DB) (s : Nat) : List Nat :=
  setAsc ((selectedPeers db s).foldl
    (fun acc p => if p.2.gtTenth then acc ++ topCoursesOf db p.1 else acc) [])

/-! ## The four public operations -/

/-- `get_collaborative_recommendations(student, n)` (as course ids).  The
`try` body has no remaining failure point once the data is well-typed, so the
`except` branch is unreachable; the two `return self._get_fallback…` early
exits are the explicit guards of the source.  -/
def get_collaborative_recommendations (db : DB) (s : Nat) (n : Nat) : List Nat :=
  if db.performances.isEmpty then fallbackIds db
  else if (matrixIndex db).contains s then
    resolveCourses db
      (((candidateList db s).filter (fun c => ¬ c ∈ attempted db s)).take n)
  else fallbackIds db

/-- `_analyze_student_preferences`: tag → accumulated `score/100`, in
first-seen tag order (a `defaultdict` preserves insertion order), plus the
learning level from the assessment (default `"beginner"`). -/
def bumpPref (acc : List (Tag × Frac)) (t : Tag) (v : Frac) : List (Tag × Frac) :=
  if (acc.map (·.1)).contains t then
    acc.map (fun p => if p.1 = t then (p.1, Frac.add p.2 v) else p)
  else acc ++ [(t, v)]

def preferredTags (db : DB) (s : Nat) : List (Tag × Frac) :=
  (db.performances.filter (fun p => p.student = s)).foldl
    (fun acc p =>
      if p.course.tags ≠ [] then
        (parseTags p.course.tags).foldl (fun acc t => bumpPref acc t ⟨p.score, 100⟩) acc
      else acc)
    []

/-- `_calculate_content_similarity(course, prefs)`. -/
def contentSimilarity (course : Course) (prefs : List (Tag × Frac)) : Frac :=
  if course.tags ≠ [] then
    (parseTags course.tags).foldl
      (fun sc t =>
        match prefs.find? (fun p => p.1 = t) with
        | some p => Frac.add sc p.2
        | none => sc)
      (Frac.ofNat 0)
  else Frac.ofNat 0

/-- Stable descending comparison for `course_scores.sort(key=…, reverse=True)`
(Python's sort is stable; with `reverse=True` ties keep original order). -/
def scoreGe (a b : Course × Frac) : Bool := Frac.lev b.2 a.2

/-- All catalog courses paired with their content score, sorted by score
descending (stable). -/
def contentRanked (db : DB) (s : Nat) : List (Course × Frac) :=
  insSortBy scoreGe (db.courses.map (fun c => (c, contentSimilarity c (preferredTags db s))))

/-- `get_content_based_recommendations(student, n)` (as course ids). -/
def get_content_based_recommendations (db : DB) (s : Nat) (n : Nat) : List Nat :=
  if (db.performances.filter (fun p => p.student = s)).isEmpty then fallbackIds db
  else
    (((contentRanked db s).filter
        (fun p => ¬ p.1.id ∈ attempted db s && Frac.ltv (Frac.ofNat 0) p.2)).take n).map
      (·.1.id)

/-- The seen-set deduplication loop of `get_hybrid_recommendations`:
keep the first occurrence of every id. -/
def pyDedup : List Nat → List Nat :=
  go []
where
  go (seen : List Nat) : List Nat → List Nat
    | [] => []
    | x :: l => if x ∈ seen then go seen l else x :: go (x :: seen) l

/-- `get_hybrid_recommendations(student, n)`: concatenate collaborative then
content-based results, deduplicate keeping first occurrences, truncate. -/
def get_hybrid_recommendations (db : DB) (s : Nat) (n : Nat) : List Nat :=
  (pyDedup (get_collaborative_recommendations db s n ++
            get_content_based_recommendations db s n)).take n

/-- Union of graph nodes into a Python `set` of nodes; since the only use
is over always-empty successor lists, insertion order is kept. -/
def unionNodes (acc : List GNode) (l : List GNode) : List GNode :=
  l.foldl (fun acc x => if x ∈ acc then acc else acc ++ [x]) acc

/-- The student's strong skills: every skill name scoring strictly more
than 60. -/
def strongSkills (ar : AssessmentResult) : List Tag :=
  (ar.skill_scores.filter (fun p => 60 < p.2)).map (·.1)

/-- `related_skills`: the union of the successor sets of the strong skills
present in the graph. -/
def relatedSkills (kg : KG) (strong : List Tag) : List GNode :=
  strong.foldl
    (fun acc sk =>
      if kg.hasNode (GNode.skill sk) then unionNodes acc (kg.successors (GNode.skill sk))
      else acc)
    []

/-- `recommended_courses`: the ids of `type='course'` successors of the
related skills (a Python `set` of ints). -/
def kgCandidates (kg : KG) (related : List GNode) : List Nat :=
  setAsc (related.foldl
    (fun acc nd =>
      if kg.hasNode nd then
        acc ++ (kg.successors nd).filterMap (fun v =>
          if (kg.attrsOf v).bind (·.ntype) = some ['c','o','u','r','s','e'] then
            match v with
            | GNode.course i => some i
            | GNode.skill _ => none
          else none)
      else acc)
    [])

/-- `get_knowledge_graph_recommendations(student, n)` (as course ids).  The
graph is the one built from the catalog at engine construction. -/
def get_knowledge_graph_recommendations (db : DB) (s : Nat) (n : Nat) : List Nat :=
  match assessmentOf db s with
  | none => fallbackIds db
  | some ar =>
    if (strongSkills ar).isEmpty then fallbackIds db
    else
      resolveCourses db
        (((kgCandidates (buildKG db.courses)
            (relatedSkills (buildKG db.courses) (strongSkills ar))).filter
          (fun c => ¬ c ∈ attempted db s)).take n)

/-! ## General list lemmas used by the claim proofs -/

theorem mem_insertBy {le : α → α → Bool} {a x : α} : ∀ {l : List α},
    x ∈ insertBy le a l ↔ x = a ∨ x ∈ l := by
  intro l
  induction l with
  | nil => simp [insertBy]
  | cons b l ih =>
    by_cases h : le a b
    · simp [insertBy, h]
    · simp [insertBy, h, ih]
      tauto

theorem mem_insSortBy {le : α → α → Bool} {x : α} : ∀ {l : List α},
    x ∈ insSortBy le l ↔ x ∈ l := by
  intro l
  induction l with
  | nil => simp [insSortBy]
  | cons a l ih => simp [insSortBy, mem_insertBy, ih]

theorem insertBy_all_false {le : α → α → Bool} {a : α} : ∀ {l : List α},
    (∀ b ∈ l, le a b = false) → insertBy le a l = l ++ [a] := by
  intro l
  induction l with
  | nil => simp [insertBy]
  | cons b l ih =>
    intro h
    have hb : le a b = false := h b (List.mem_cons_self b l)
    have hstep : insertBy le a (b :: l) = b :: insertBy le a l := by
      simp [insertBy, hb]
    rw [hstep, ih (fun c hc => h c (List.mem_cons_of_mem b hc)), List.cons_append]

theorem insertBy_append_single {le : α → α → Bool} {a x : α} (hx : le a x = true) :
    ∀ {m : List α}, insertBy le a (m ++ [x]) = insertBy le a m ++ [x] := by
  intro m
  induction m with
  | nil => simp [insertBy, hx]
  | cons b m ih =>
    by_cases h : le a b
    · simp [insertBy, h]
    · simp [insertBy, h, ih]

/-- A stable insertion sort sends a unique strict maximum to the end, sorting
the remaining elements as if the maximum were absent. -/
theorem insSortBy_unique_max {le : α → α → Bool} (a : α) :
    ∀ (l1 l2 : List α),
    (∀ b ∈ l1 ++ l2, le a b = false ∧ le b a = true) →
    insSortBy le (l1 ++ a :: l2) = insSortBy le (l1 ++ l2) ++ [a] := by
  intro l1
  induction l1 with
  | nil =>
    intro l2 h
    simp only [List.nil_append, insSortBy]
    exact insertBy_all_false (fun b hb =>
      (h b (by simpa using mem_insSortBy.mp hb)).1)
  | cons c l1 ih =>
    intro l2 h
    have hc : le c a = true := (h c (by simp)).2
    have e1 : (c :: l1) ++ a :: l2 = c :: (l1 ++ a :: l2) := rfl
    have e2 : (c :: l1) ++ l2 = c :: (l1 ++ l2) := rfl
    rw [e1, e2]
    show insertBy le c (insSortBy le (l1 ++ a :: l2)) =
      insertBy le c (insSortBy le (l1 ++ l2)) ++ [a]
    rw [ih l2 (fun b hb => h b (List.mem_cons_of_mem c hb)), insertBy_append_single hc]

theorem pyDedup_go_subset {seen : List Nat} {x : Nat} : ∀ {l : List Nat},
    x ∈ pyDedup.go seen l → x ∈ l := by
  intro l
  induction l generalizing seen with
  | nil => simp [pyDedup.go]
  | cons a l ih =>
    intro h
    by_cases ha : a ∈ seen
    · simp only [pyDedup.go, if_pos ha] at h
      exact List.mem_cons_of_mem a (ih h)
    · simp only [pyDedup.go, if_neg ha] at h
      rcases List.mem_cons.mp h with rfl | h2
      · exact List.mem_cons_self x l
      · exact List.mem_cons_of_mem a (ih h2)

theorem pyDedup_subset {x : Nat} {l : List Nat} (h : x ∈ pyDedup l) : x ∈ l :=
  pyDedup_go_subset h

theorem pyDedup_go_not_mem_seen {y : Nat} : ∀ {l seen : List Nat},
    y ∈ seen → y ∉ pyDedup.go seen l := by
  intro l
  induction l with
  | nil => intro seen _; simp [pyDedup.go]
  | cons a l ih =>
    intro seen hy
    by_cases ha : a ∈ seen
    · simpa only [pyDedup.go, if_pos ha] using ih hy
    · simp only [pyDedup.go, if_neg ha, List.mem_cons]
      push_neg
      constructor
      · rintro rfl; exact ha hy
      · exact ih (List.mem_cons_of_mem a hy)

theorem pyDedup_go_nodup : ∀ (l seen : List Nat), (pyDedup.go seen l).Nodup := by
  intro l
  induction l with
  | nil => intro seen; simp [pyDedup.go]
  | cons a l ih =>
    intro seen
    by_cases ha : a ∈ seen
    · simpa only [pyDedup.go, if_pos ha] using ih seen
    · simp only [pyDedup.go, if_neg ha]
      exact List.nodup_cons.mpr
        ⟨pyDedup_go_not_mem_seen (List.mem_cons_self a seen), ih (a :: seen)⟩

theorem pyDedup_nodup (l : List Nat) : (pyDedup l).Nodup := pyDedup_go_nodup l []

/-- `filter` after `map` is `map` after `filter` of the composed predicate. -/
theorem filter_map_comm (f : α → β) (p : β → Bool) : ∀ (l : List α),
    (l.map f).filter p = (l.filter (fun a => p (f a))).map f := by
  intro l
  induction l with
  | nil => rfl
  | cons a l ih =>
    by_cases h : p (f a)
    · simp [h, ih]
    · simp [h, ih]

/-- In a list whose keys are duplicate-free, a present key matches exactly
one entry. -/
theorem filter_key_length_one [DecidableEq κ] (key : ε → κ) (k : κ) :
    ∀ (l : List ε), ((l.map key).Nodup) → k ∈ l.map key →
    (l.filter (fun e => key e = k)).length = 1 := by
  intro l
  induction l with
  | nil => simp
  | cons e l ih =>
    intro hnd hk
    rw [List.map_cons] at hnd hk
    rcases List.nodup_cons.mp hnd with ⟨he, hl⟩
    by_cases h : key e = k
    · subst h
      have hfil : l.filter (fun e' => key e' = key e) = [] := by
        refine List.filter_eq_nil_iff.mpr (fun a ha => ?_)
        simp only [decide_eq_true_eq]
        intro hcontra
        exact he (hcontra ▸ List.mem_map_of_mem key ha)
      simp [List.filter_cons, hfil]
    · have hk' : k ∈ l.map key := by
        rcases List.mem_cons.mp hk with h1 | h1
        · exact absurd h1.symm h
        · exact h1
      simp only [List.filter_cons, h]
      simpa [h] using ih hl hk'

/-- A duplicate-free list included in another list is no longer than the
other list. -/
theorem nodup_subset_length_le {l m : List Nat} (hl : l.Nodup)
    (hsub : ∀ x ∈ l, x ∈ m) : l.length ≤ m.length := by
  calc l.length = l.toFinset.card := (List.toFinset_card_of_nodup hl).symm
    _ ≤ m.toFinset.card := Finset.card_le_card (fun x hx =>
        List.mem_toFinset.mpr (hsub x (List.mem_toFinset.mp hx)))
    _ ≤ m.length := m.toFinset_card_le

/-! ## Concrete data used by counterexamples and witnesses -/

def pythonTag : Tag := ['p','y','t','h','o','n']

def javaTag : Tag := ['j','a','v','a']

/-- Scenario of §8 of the spec: one course tagged `python`, a student whose
assessment scores `python` at 75 and `java` at 40, no quiz history. -/
def dbScenario : DB :=
  ⟨[⟨1, ['A'], pythonTag⟩, ⟨2, ['B'], javaTag⟩], [], [],
   [⟨1, [(pythonTag, 75), (javaTag, 40)], ['b','e','g','i','n','n','e','r']⟩]⟩

def mkPlainCourse (i : Nat) : Course := ⟨i, ['X'], []⟩

/-- Five untagged courses; student 1 has attempted course 1 and has no
assessment, so the knowledge-graph filter takes its fallback path. -/
def dbFallback : DB :=
  ⟨[mkPlainCourse 1, mkPlainCourse 2, mkPlainCourse 3, mkPlainCourse 4, mkPlainCourse 5],
   [⟨1, mkPlainCourse 1, 50⟩], [], []⟩

/-- Students 1 and 2 with identical quiz-performance rows (score 80 on the
single course 10). -/
def dbTwins : DB :=
  ⟨[⟨10, ['T'], ['p','y']⟩],
   [⟨1, ⟨10, ['T'], ['p','y']⟩, 80⟩, ⟨2, ⟨10, ['T'], ['p','y']⟩, 80⟩], [], []⟩

/-! ## C1 -/

/-- Claim C1: with skill_scores `{python: 75, java: 40}`, an (unattempted)
course 1 with graph edge `course 1 → skill python`, and limit 5 ≥ 1, the
knowledge-graph filter is claimed to include course 1.  The code instead
returns the empty list: `DiGraph.neighbors` yields successors only, skill
nodes have no outgoing edges, so the related-skill set is always empty.  This
theorem evaluates the embedded code at the failing input: all scenario
premises hold, yet the result is `[]`. -/
theorem C1_kg_filter_returns_empty_on_strong_skill :
    assessmentOf dbScenario 1 =
      some ⟨1, [(pythonTag, 75), (javaTag, 40)], ['b','e','g','i','n','n','e','r']⟩ ∧
    (buildKG dbScenario.courses).hasEdge (GNode.course 1) (GNode.skill pythonTag) = true ∧
    attempted dbScenario 1 = [] ∧
    get_knowledge_graph_recommendations dbScenario 1 5 = [] := by
  decide

/-! ## C10 -/

/-- Claim C10: a student who has an `AssessmentResult` but no skill scoring
strictly more than 60 gets the fallback list (first 5 catalog courses) from
`get_knowledge_graph_recommendations`, not an empty list. -/
theorem C10_kg_filter_falls_back_without_strong_skills :
    ∀ (db : DB) (s n : Nat) (ar : AssessmentResult),
    assessmentOf db s = some ar →
    (∀ p ∈ ar.skill_scores, p.2 ≤ 60) →
    get_knowledge_graph_recommendations db s n = fallbackIds db := by
  intro db s n ar har hle
  unfold get_knowledge_graph_recommendations
  rw [har]
  have hfil : ar.skill_scores.filter (fun p => 60 < p.2) = [] :=
    List.filter_eq_nil_iff.mpr (fun p hp => by
      simp only [decide_eq_true_eq]
      exact Int.not_lt.mpr (hle p hp))
  simp [strongSkills, hfil]

def dbWeakSkills : DB :=
  ⟨[mkPlainCourse 1, mkPlainCourse 2], [], [],
   [⟨1, [(pythonTag, 60), (javaTag, 10)], ['b','e','g','i','n','n','e','r']⟩]⟩

theorem C10_witness :
    assessmentOf dbWeakSkills 1 =
      some ⟨1, [(pythonTag, 60), (javaTag, 10)], ['b','e','g','i','n','n','e','r']⟩ ∧
    get_knowledge_graph_recommendations dbWeakSkills 1 5 = fallbackIds dbWeakSkills :=
  ⟨by decide,
   C10_kg_filter_falls_back_without_strong_skills dbWeakSkills 1 5
     ⟨1, [(pythonTag, 60), (javaTag, 10)], ['b','e','g','i','n','n','e','r']⟩
     (by decide) (by decide)⟩

/-! ## C6 -/

/-- Claim C6: a student with zero quiz-performance records receives the
fallback list from both the collaborative and the content-based filter, for
every limit.  For the collaborative filter this happens either through the
empty-history guard (no records at all) or because the student has no row in
the pivoted matrix. -/
theorem C6_zero_history_students_get_fallback :
    ∀ (db : DB) (s n : Nat),
    db.performances.filter (fun p => p.student = s) = [] →
    get_collaborative_recommendations db s n = fallbackIds db ∧
    get_content_based_recommendations db s n = fallbackIds db := by
  intro db s n h
  constructor
  · unfold get_collaborative_recommendations
    by_cases hp : db.performances.isEmpty
    · simp [hp]
    · have hs : (matrixIndex db).contains s = false := by
        rw [Bool.eq_false_iff]
        intro hc
        have hmem : s ∈ matrixIndex db := List.elem_iff.mp hc
        have h2 : s ∈ setAsc ((buildRows db).map (·.student_id)) := by
          rw [matrixIndex] at hmem; exact hmem
        have h3 := mem_setAsc.mp h2
        rw [buildRows, List.map_map] at h3
        rcases List.mem_map.mp h3 with ⟨p, hpmem, hps⟩
        simp only [Function.comp] at hps
        have h4 : p ∈ db.performances.filter (fun p => p.student = s) :=
          List.mem_filter.mpr ⟨hpmem, by simp [hps]⟩
        rw [h] at h4
        exact absurd h4 (List.not_mem_nil p)
      rw [if_neg hp, hs]
      simp
  · unfold get_content_based_recommendations
    simp [h]

theorem C6_witness :
    dbFallback.performances.filter (fun p => p.student = 2) = [] ∧
    (get_collaborative_recommendations dbFallback 2 5 = fallbackIds dbFallback ∧
     get_content_based_recommendations dbFallback 2 5 = fallbackIds dbFallback) :=
  ⟨by decide, C6_zero_history_students_get_fallback dbFallback 2 5 (by decide)⟩

/-! ## C5 -/

/-- Claim C5: the hybrid result equals the collaborative list followed by the
content-based list, deduplicated by course id keeping first occurrences, then
truncated to the limit; consequently no course id appears twice in it. -/
theorem C5_hybrid_is_dedup_of_concat_truncated :
    ∀ (db : DB) (s n : Nat),
    get_hybrid_recommendations db s n =
      (pyDedup (get_collaborative_recommendations db s n ++
                get_content_based_recommendations db s n)).take n ∧
    (get_hybrid_recommendations db s n).Nodup := by
  intro db s n
  exact ⟨rfl, (pyDedup_nodup _).sublist (List.take_sublist n _)⟩

/-! ## Membership lemmas for the four operations -/

theorem mem_resolveCourses {db : DB} {ids : List Nat} {c : Nat}
    (h : c ∈ resolveCourses db ids) : c ∈ ids := by
  rw [resolveCourses] at h
  rcases List.mem_map.mp h with ⟨course, hmem, rfl⟩
  simpa using List.of_mem_filter hmem

theorem collab_attempted_implies_fallback {db : DB} {s n c : Nat}
    (hc : c ∈ get_collaborative_recommendations db s n)
    (hatt : c ∈ attempted db s) :
    get_collaborative_recommendations db s n = fallbackIds db := by
  unfold get_collaborative_recommendations at hc ⊢
  by_cases hp : db.performances.isEmpty
  · rw [if_pos hp]
  · by_cases hm : (matrixIndex db).contains s
    · exfalso
      rw [if_neg hp, if_pos hm] at hc
      have h1 := List.mem_of_mem_take (mem_resolveCourses hc)
      have h3 := List.of_mem_filter h1
      simp only [decide_eq_true_eq] at h3
      exact h3 hatt
    · rw [if_neg hp, if_neg hm]

theorem content_attempted_implies_fallback {db : DB} {s n c : Nat}
    (hc : c ∈ get_content_based_recommendations db s n)
    (hatt : c ∈ attempted db s) :
    get_content_based_recommendations db s n = fallbackIds db := by
  unfold get_content_based_recommendations at hc ⊢
  by_cases hp : (db.performances.filter (fun p => p.student = s)).isEmpty
  · rw [if_pos hp]
  · exfalso
    rw [if_neg hp] at hc
    rcases List.mem_map.mp hc with ⟨pair, hpair, hid⟩
    have h1 := List.of_mem_filter (List.mem_of_mem_take hpair)
    simp only [Bool.and_eq_true, Bool.not_eq_true', decide_eq_false_iff_not,
      decide_eq_true_eq] at h1
    exact h1.1 (hid.symm ▸ hatt)

theorem kg_attempted_implies_fallback {db : DB} {s n c : Nat}
    (hc : c ∈ get_knowledge_graph_recommendations db s n)
    (hatt : c ∈ attempted db s) :
    get_knowledge_graph_recommendations db s n = fallbackIds db := by
  unfold get_knowledge_graph_recommendations at hc ⊢
  cases har : assessmentOf db s with
  | none => simp only [har]
  | some ar =>
    simp only [har] at hc ⊢
    by_cases hstrong : (strongSkills ar).isEmpty
    · rw [if_pos hstrong]
    · exfalso
      rw [if_neg hstrong] at hc
      have h1 := List.mem_of_mem_take (mem_resolveCourses hc)
      have h3 := List.of_mem_filter h1
      simp only [decide_eq_true_eq] at h3
      exact h3 hatt

/-! ## C2 -/

/-- Claim C2 counterexample: student 1 has attempted course 1, but the
knowledge-graph operation (on its fallback path, because the student has no
`AssessmentResult`) returns the first five catalog courses, including
attempted course 1 — so the claim that no operation ever returns an
attempted course, even on the fallback path, is false. -/
theorem C2_counterexample_fallback_returns_attempted :
    1 ∈ attempted dbFallback 1 ∧
    get_knowledge_graph_recommendations dbFallback 1 5 = [1, 2, 3, 4, 5] ∧
    1 ∈ get_knowledge_graph_recommendations dbFallback 1 5 := by
  decide

/-- Claim C2 (amended): an attempted course can appear in a result only via
the fallback list: if collaborative / content-based / knowledge-graph output
contains an attempted course, that output is the fallback list itself; if the
hybrid output contains one, at least one of its two constituent filters
returned the fallback list. -/
theorem C2_amended_attempted_only_via_fallback :
    ∀ (db : DB) (s n c : Nat),
    (c ∈ get_collaborative_recommendations db s n → c ∈ attempted db s →
      get_collaborative_recommendations db s n = fallbackIds db) ∧
    (c ∈ get_content_based_recommendations db s n → c ∈ attempted db s →
      get_content_based_recommendations db s n = fallbackIds db) ∧
    (c ∈ get_knowledge_graph_recommendations db s n → c ∈ attempted db s →
      get_knowledge_graph_recommendations db s n = fallbackIds db) ∧
    (c ∈ get_hybrid_recommendations db s n → c ∈ attempted db s →
      get_collaborative_recommendations db s n = fallbackIds db ∨
      get_content_based_recommendations db s n = fallbackIds db) := by
  intro db s n c
  refine ⟨collab_attempted_implies_fallback, content_attempted_implies_fallback,
    kg_attempted_implies_fallback, ?_⟩
  intro hc hatt
  have h1 : c ∈ get_collaborative_recommendations db s n ++
      get_content_based_recommendations db s n :=
    pyDedup_subset (List.mem_of_mem_take hc)
  rcases List.mem_append.mp h1 with h2 | h2
  · exact Or.inl (collab_attempted_implies_fallback h2 hatt)
  · exact Or.inr (content_attempted_implies_fallback h2 hatt)

theorem C2_witness :
    1 ∈ get_knowledge_graph_recommendations dbFallback 1 5 ∧
    1 ∈ attempted dbFallback 1 ∧
    get_knowledge_graph_recommendations dbFallback 1 5 = fallbackIds dbFallback :=
  ⟨by decide, by decide,
   (C2_amended_attempted_only_via_fallback dbFallback 1 5 1).2.2.1 (by decide) (by decide)⟩

/-! ## C3 -/

theorem resolveCourses_length_le {db : DB} {ids : List Nat}
    (hids : (db.courses.map (·.id)).Nodup) :
    (resolveCourses db ids).length ≤ ids.length := by
  have h1 : (resolveCourses db ids).Nodup := by
    rw [resolveCourses]
    exact hids.sublist ((List.filter_sublist db.courses).map (·.id))
  exact nodup_subset_length_le h1 (fun x hx => mem_resolveCourses hx)

/-- Claim C3 counterexample: with limit 3 and a 5-course catalog, the
knowledge-graph operation on its fallback path returns all five fallback
courses, exceeding the requested limit. -/
theorem C3_counterexample_fallback_exceeds_limit :
    get_knowledge_graph_recommendations dbFallback 1 3 = [1, 2, 3, 4, 5] ∧
    ¬ (get_knowledge_graph_recommendations dbFallback 1 3).length ≤ 3 := by
  decide

/-- Exactly one qualifying course: courses 1 and 2 share tag `py`, student 1
attempted course 1, the other catalog courses share no tag with the
student's history. -/
def dbOneQualifying : DB :=
  ⟨[⟨1, ['X'], ['p','y']⟩, ⟨2, ['X'], ['p','y']⟩, ⟨3, ['X'], ['z','z']⟩,
    ⟨4, ['X'], ['z','z']⟩, ⟨5, ['X'], ['z','z']⟩],
   [⟨1, ⟨1, ['X'], ['p','y']⟩, 80⟩], [], []⟩

/-- Claim C3 (amended): assuming distinct catalog course ids (a primary-key
invariant), every operation returns at most `n` courses except when it
returns the fallback list, whose length is bounded by 5 and may exceed `n`;
the hybrid operation always respects the limit.  The concrete
one-qualifying-course scenario returns exactly that single course for limit
3. -/
theorem C3_amended_limit_or_fallback :
    ∀ (db : DB) (s n : Nat),
    (db.courses.map (·.id)).Nodup →
    ((get_collaborative_recommendations db s n).length ≤ n ∨
      get_collaborative_recommendations db s n = fallbackIds db) ∧
    ((get_content_based_recommendations db s n).length ≤ n ∨
      get_content_based_recommendations db s n = fallbackIds db) ∧
    ((get_knowledge_graph_recommendations db s n).length ≤ n ∨
      get_knowledge_graph_recommendations db s n = fallbackIds db) ∧
    (get_hybrid_recommendations db s n).length ≤ n ∧
    (fallbackIds db).length ≤ 5 ∧
    get_content_based_recommendations dbOneQualifying 1 3 = [2] := by
  intro db s n hids
  refine ⟨?_, ?_, ?_, ?_, ?_, by decide⟩
  · unfold get_collaborative_recommendations
    by_cases hp : db.performances.isEmpty
    · right; rw [if_pos hp]
    · by_cases hm : (matrixIndex db).contains s
      · left
        rw [if_neg hp, if_pos hm]
        exact le_trans (resolveCourses_length_le hids) (List.length_take_le n _)
      · right; rw [if_neg hp, if_neg hm]
  · unfold get_content_based_recommendations
    by_cases hp : (db.performances.filter (fun p => p.student = s)).isEmpty
    · right; rw [if_pos hp]
    · left
      rw [if_neg hp, List.length_map]
      exact List.length_take_le n _
  · unfold get_knowledge_graph_recommendations
    cases har : assessmentOf db s with
    | none => right; simp only [har]
    | some ar =>
      simp only [har]
      by_cases hstrong : (strongSkills ar).isEmpty
      · right; rw [if_pos hstrong]
      · left
        rw [if_neg hstrong]
        exact le_trans (resolveCourses_length_le hids) (List.length_take_le n _)
  · exact List.length_take_le n _
  · rw [fallbackIds, List.length_map]
    exact List.length_take_le 5 _

theorem C3_witness :
    (dbFallback.courses.map (·.id)).Nodup ∧
    (((get_collaborative_recommendations dbFallback 1 3).length ≤ 3 ∨
      get_collaborative_recommendations dbFallback 1 3 = fallbackIds dbFallback) ∧
     ((get_content_based_recommendations dbFallback 1 3).length ≤ 3 ∨
      get_content_based_recommendations dbFallback 1 3 = fallbackIds dbFallback) ∧
     ((get_knowledge_graph_recommendations dbFallback 1 3).length ≤ 3 ∨
      get_knowledge_graph_recommendations dbFallback 1 3 = fallbackIds dbFallback) ∧
     (get_hybrid_recommendations dbFallback 1 3).length ≤ 3 ∧
     (fallbackIds dbFallback).length ≤ 5 ∧
     get_content_based_recommendations dbOneQualifying 1 3 = [2]) :=
  ⟨by decide, C3_amended_limit_or_fallback dbFallback 1 3 (by decide)⟩

/-! ## C4 -/

theorem fallback_subset_catalog {db : DB} {c : Nat} (h : c ∈ fallbackIds db) :
    c ∈ db.courses.map (·.id) := by
  rw [fallbackIds] at h
  rcases List.mem_map.mp h with ⟨course, hmem, rfl⟩
  exact List.mem_map_of_mem _ (List.mem_of_mem_take hmem)

theorem resolve_subset_catalog {db : DB} {ids : List Nat} {c : Nat}
    (h : c ∈ resolveCourses db ids) : c ∈ db.courses.map (·.id) := by
  rw [resolveCourses] at h
  rcases List.mem_map.mp h with ⟨course, hmem, rfl⟩
  exact List.mem_map_of_mem _ (List.mem_of_mem_filter hmem)

theorem collab_subset_catalog {db : DB} {s n c : Nat}
    (h : c ∈ get_collaborative_recommendations db s n) : c ∈ db.courses.map (·.id) := by
  unfold get_collaborative_recommendations at h
  by_cases hp : db.performances.isEmpty
  · rw [if_pos hp] at h; exact fallback_subset_catalog h
  · by_cases hm : (matrixIndex db).contains s
    · rw [if_neg hp, if_pos hm] at h; exact resolve_subset_catalog h
    · rw [if_neg hp, if_neg hm] at h; exact fallback_subset_catalog h

theorem content_subset_catalog {db : DB} {s n c : Nat}
    (h : c ∈ get_content_based_recommendations db s n) : c ∈ db.courses.map (·.id) := by
  unfold get_content_based_recommendations at h
  by_cases hp : (db.performances.filter (fun p => p.student = s)).isEmpty
  · rw [if_pos hp] at h; exact fallback_subset_catalog h
  · rw [if_neg hp] at h
    rcases List.mem_map.mp h with ⟨pair, hpair, rfl⟩
    have h2 : pair ∈ contentRanked db s :=
      List.mem_of_mem_filter (List.mem_of_mem_take hpair)
    rw [contentRanked] at h2
    rcases List.mem_map.mp (mem_insSortBy.mp h2) with ⟨course, hc, rfl⟩
    exact List.mem_map_of_mem _ hc

theorem kg_subset_catalog {db : DB} {s n c : Nat}
    (h : c ∈ get_knowledge_graph_recommendations db s n) : c ∈ db.courses.map (·.id) := by
  unfold get_knowledge_graph_recommendations at h
  cases har : assessmentOf db s with
  | none => simp only [har] at h; exact fallback_subset_catalog h
  | some ar =>
    simp only [har] at h
    by_cases hstrong : (strongSkills ar).isEmpty
    · rw [if_pos hstrong] at h; exact fallback_subset_catalog h
    · rw [if_neg hstrong] at h; exact resolve_subset_catalog h

/-- Claim C4: every public operation is a total function producing a list of
catalog course ids on every input, and every missing-signal condition
(no performance data at all, requester absent from the pivoted matrix, no
personal history, no assessment, no strong skills) is converted into the
fallback list at the operation's boundary rather than escaping.  In the
embedding every partial Python step is total on well-typed data, so the
`except` branches of the source have no reachable counterpart; the fallback
conversions below are exactly the source's explicit guard paths. -/
theorem C4_operations_total_and_convert_missing_signal_to_fallback :
    ∀ (db : DB) (s n c : Nat),
    (c ∈ get_collaborative_recommendations db s n → c ∈ db.courses.map (·.id)) ∧
    (c ∈ get_content_based_recommendations db s n → c ∈ db.courses.map (·.id)) ∧
    (c ∈ get_hybrid_recommendations db s n → c ∈ db.courses.map (·.id)) ∧
    (c ∈ get_knowledge_graph_recommendations db s n → c ∈ db.courses.map (·.id)) ∧
    (db.performances.isEmpty = true →
      get_collaborative_recommendations db s n = fallbackIds db) ∧
    ((matrixIndex db).contains s = false →
      get_collaborative_recommendations db s n = fallbackIds db) ∧
    ((db.performances.filter (fun p => p.student = s)).isEmpty = true →
      get_content_based_recommendations db s n = fallbackIds db) ∧
    (assessmentOf db s = none →
      get_knowledge_graph_recommendations db s n = fallbackIds db) ∧
    (∀ ar, assessmentOf db s = some ar → (strongSkills ar).isEmpty = true →
      get_knowledge_graph_recommendations db s n = fallbackIds db) := by
  intro db s n c
  refine ⟨collab_subset_catalog, content_subset_catalog, ?_, kg_subset_catalog,
    ?_, ?_, ?_, ?_, ?_⟩
  · intro h
    have h1 := pyDedup_subset (List.mem_of_mem_take h)
    rcases List.mem_append.mp h1 with h2 | h2
    · exact collab_subset_catalog h2
    · exact content_subset_catalog h2
  · intro hp
    unfold get_collaborative_recommendations
    rw [if_pos hp]
  · intro hm
    unfold get_collaborative_recommendations
    by_cases hp : db.performances.isEmpty
    · rw [if_pos hp]
    · rw [if_neg hp, hm]
      simp
  · intro hp
    unfold get_content_based_recommendations
    rw [if_pos hp]
  · intro har
    unfold get_knowledge_graph_recommendations
    simp only [har]
  · intro ar har hstrong
    unfold get_knowledge_graph_recommendations
    simp only [har]
    rw [if_pos hstrong]

theorem C4_witness :
    2 ∈ get_knowledge_graph_recommendations dbFallback 1 3 ∧
    2 ∈ dbFallback.courses.map (·.id) ∧
    assessmentOf dbFallback 1 = none ∧
    get_knowledge_graph_recommendations dbFallback 1 3 = fallbackIds dbFallback := by
  obtain ⟨h1, h2, h3, h4, h5, h6, h7, h8, h9⟩ :=
    C4_operations_total_and_convert_missing_signal_to_fallback dbFallback 1 3 2
  exact ⟨by decide, h4 (by decide), by decide, h8 (by decide)⟩

/-! ## C9: engagement-independence of the collaborative filter -/

/-- The three matrix-relevant fields of a data row — everything except the
computed engagement factor. -/
def Row.strip (r : Row) : Nat × Nat × Nat := (r.student_id, r.course_id, r.score)

theorem buildRows_strip_eq {db db' : DB} (hP : db.performances = db'.performances) :
    (buildRows db).map Row.strip = (buildRows db').map Row.strip := by
  rw [buildRows, buildRows, List.map_map, List.map_map, hP]
  rfl

theorem matrixIndex_eq {db db' : DB} (hP : db.performances = db'.performances) :
    matrixIndex db = matrixIndex db' := by
  rw [matrixIndex, matrixIndex, buildRows, buildRows, List.map_map, List.map_map, hP]
  rfl

theorem matrixCols_eq {db db' : DB} (hP : db.performances = db'.performances) :
    matrixCols db = matrixCols db' := by
  rw [matrixCols, matrixCols, buildRows, buildRows, List.map_map, List.map_map, hP]
  rfl

theorem strip_filter {rows rows' : List Row}
    (h : rows.map Row.strip = rows'.map Row.strip) (s c : Nat) :
    (rows.filter (fun r => r.student_id = s && r.course_id = c)).map Row.strip =
    (rows'.filter (fun r => r.student_id = s && r.course_id = c)).map Row.strip := by
  induction rows generalizing rows' with
  | nil =>
    cases rows' with
    | nil => rfl
    | cons r' rest => simp at h
  | cons r rows ih =>
    cases rows' with
    | nil => simp at h
    | cons r' rest =>
      simp only [List.map_cons, List.cons.injEq] at h
      obtain ⟨hr, hrest⟩ := h
      have h1 : r.student_id = r'.student_id := congrArg (·.1) hr
      have h2 : r.course_id = r'.course_id := congrArg (·.2.1) hr
      rw [List.filter_cons, List.filter_cons, h1, h2]
      cases hpb : (decide (r'.student_id = s) && decide (r'.course_id = c)) with
      | true =>
        rw [if_pos rfl, if_pos rfl]
        simp only [List.map_cons]
        rw [hr, ih hrest]
      | false =>
        rw [if_neg (by simp), if_neg (by simp)]
        exact ih hrest

theorem cell_eq {db db' : DB} (hP : db.performances = db'.performances) (s c : Nat) :
    cell db s c = cell db' s c := by
  have L := strip_filter (buildRows_strip_eq hP) s c
  have hlen : (cellRows db s c).length = (cellRows db' s c).length := by
    have h1 := congrArg List.length L
    rw [List.length_map, List.length_map] at h1
    exact h1
  have hempty : (cellRows db s c).isEmpty = (cellRows db' s c).isEmpty := by
    revert hlen
    cases cellRows db s c <;> cases cellRows db' s c <;> simp_all
  have hscore : (cellRows db s c).map (fun r => r.score) =
      (cellRows db' s c).map (fun r => r.score) := by
    have h2 := congrArg (List.map (fun t : Nat × Nat × Nat => t.2.2)) L
    rw [List.map_map, List.map_map] at h2
    exact h2
  rw [cell, cell, hempty, hscore, hlen]

theorem rowVec_eq {db db' : DB} (hP : db.performances = db'.performances) (s : Nat) :
    rowVec db s = rowVec db' s := by
  rw [rowVec, rowVec, matrixCols_eq hP]
  exact List.map_congr_left (fun c _ => cell_eq hP s c)

theorem sortedColumn_eq {db db' : DB} (hP : db.performances = db'.performances) (s : Nat) :
    sortedColumn db s = sortedColumn db' s := by
  rw [sortedColumn, sortedColumn, simColumn, simColumn, matrixIndex_eq hP]
  congr 1
  apply congrArg
  exact List.map_congr_left (fun t _ => by rw [rowVec_eq hP t, rowVec_eq hP s])

theorem selectedPeers_eq {db db' : DB} (hP : db.performances = db'.performances) (s : Nat) :
    selectedPeers db s = selectedPeers db' s := by
  rw [selectedPeers, selectedPeers, sortedColumn_eq hP]

theorem topCoursesOf_eq {db db' : DB} (hP : db.performances = db'.performances) :
    topCoursesOf db = topCoursesOf db' := by
  funext t
  rw [topCoursesOf, topCoursesOf, matrixCols_eq hP]
  exact List.filter_congr (fun c _ => by rw [cell_eq hP t c])

theorem candidateList_eq {db db' : DB} (hP : db.performances = db'.performances) (s : Nat) :
    candidateList db s = candidateList db' s := by
  rw [candidateList, candidateList, selectedPeers_eq hP, topCoursesOf_eq hP]

theorem attempted_eq {db db' : DB} (hP : db.performances = db'.performances) (s : Nat) :
    attempted db s = attempted db' s := by
  rw [attempted, attempted, hP]

/-- Claim C9: the collaborative result does not depend on the `Engagement`
records: the per-row engagement factor is computed into the data rows but
never folded into the pivoted score matrix, whose cells are raw quiz scores
only — so two snapshots differing only in engagements yield identical
collaborative recommendations. -/
theorem C9_collaborative_ignores_engagement :
    ∀ (db db' : DB) (s n : Nat),
    db.courses = db'.courses →
    db.performances = db'.performances →
    db.assessments = db'.assessments →
    get_collaborative_recommendations db s n = get_collaborative_recommendations db' s n := by
  intro db db' s n hC hP hA
  unfold get_collaborative_recommendations
  rw [hP, matrixIndex_eq hP, candidateList_eq hP, attempted_eq hP, resolveCourses,
    resolveCourses, fallbackIds, fallbackIds, hC]

def dbEngaged : DB :=
  { dbFallback with engagements := [⟨1, 1, 3600, ['c','o','m','p','l','e','t','e','d']⟩] }

theorem C9_witness :
    dbFallback.courses = dbEngaged.courses ∧
    dbFallback.performances = dbEngaged.performances ∧
    dbFallback.assessments = dbEngaged.assessments ∧
    dbFallback.engagements ≠ dbEngaged.engagements ∧
    get_collaborative_recommendations dbFallback 1 5 =
      get_collaborative_recommendations dbEngaged 1 5 :=
  ⟨rfl, rfl, rfl, by decide,
   C9_collaborative_ignores_engagement dbFallback dbEngaged 1 5 rfl rfl rfl⟩

/-! ## C8: invariants of the knowledge-graph build -/
theorem foldl_preserve {σ β : Type} (P : σ → Prop) (step : σ → β → σ)
    (h : ∀ g x, P g → P (step g x)) :
    ∀ (l : List β) (g : σ), P g → P (l.foldl step g) := by
  intro l
  induction l with
  | nil => intro g hg; exact hg
  | cons y l ih => intro g hg; exact ih _ (h g y hg)

theorem foldl_establish {σ β : Type} (Q : σ → Prop) (step : σ → β → σ) (x : β)
    (hx : ∀ g, Q (step g x)) (hpres : ∀ g y, Q g → Q (step g y)) :
    ∀ (l : List β) (g : σ), x ∈ l → Q (l.foldl step g) := by
  intro l
  induction l with
  | nil => intro g hmem; exact absurd hmem (List.not_mem_nil x)
  | cons y l ih =>
    intro g hmem
    rcases List.mem_cons.mp hmem with rfl | hmem'
    · exact foldl_preserve Q step (fun g y hg => hpres g y hg) l _ (hx g)
    · exact ih _ hmem'

theorem nodup_append_singleton {l : List α} {x : α} (h : l.Nodup) (hx : x ∉ l) :
    (l ++ [x]).Nodup := by
  rw [List.nodup_append]
  refine ⟨h, List.nodup_singleton x, ?_⟩
  intro a ha hax
  simp only [List.mem_singleton] at hax
  subst hax
  exact hx ha

theorem KG.hasNode_iff {g : KG} {k : GNode} :
    g.hasNode k = true ↔ k ∈ g.nodes.map (·.1) := by
  rw [KG.hasNode]
  exact List.elem_iff

theorem KG.addNode_edges (g : KG) (k : GNode) (a : NAttrs) :
    (g.addNode k a).edges = g.edges := by
  rw [KG.addNode]
  by_cases h : g.hasNode k <;> simp [h]

theorem KG.addNode_keys_of_has {g : KG} {k : GNode} (a : NAttrs) (h : g.hasNode k = true) :
    (g.addNode k a).nodes.map (·.1) = g.nodes.map (·.1) := by
  rw [KG.addNode, if_pos h]
  simp only [List.map_map]
  refine List.map_congr_left (fun p _ => ?_)
  by_cases hp : p.1 = k
  · simp [Function.comp, hp]
  · simp [Function.comp, hp]

theorem KG.addNode_keys_of_not {g : KG} {k : GNode} (a : NAttrs) (h : ¬ g.hasNode k = true) :
    (g.addNode k a).nodes.map (·.1) = g.nodes.map (·.1) ++ [k] := by
  rw [KG.addNode, if_neg h]
  simp

theorem KG.hasNode_addNode_self {g : KG} {k : GNode} (a : NAttrs) :
    (g.addNode k a).hasNode k = true := by
  by_cases h : g.hasNode k
  · rw [KG.hasNode_iff, KG.addNode_keys_of_has a h]
    exact KG.hasNode_iff.mp h
  · rw [KG.hasNode_iff, KG.addNode_keys_of_not a h]
    simp

theorem KG.hasNode_addNode_mono {g : KG} {k k' : GNode} (a : NAttrs)
    (h : g.hasNode k = true) : (g.addNode k' a).hasNode k = true := by
  by_cases h' : g.hasNode k'
  · rw [KG.hasNode_iff, KG.addNode_keys_of_has a h']
    exact KG.hasNode_iff.mp h
  · rw [KG.hasNode_iff, KG.addNode_keys_of_not a h']
    exact List.mem_append_left _ (KG.hasNode_iff.mp h)

theorem KG.addNode_nodup {g : KG} {k : GNode} (a : NAttrs)
    (h : (g.nodes.map (·.1)).Nodup) : ((g.addNode k a).nodes.map (·.1)).Nodup := by
  by_cases hk : g.hasNode k
  · rw [KG.addNode_keys_of_has a hk]; exact h
  · rw [KG.addNode_keys_of_not a hk]
    exact nodup_append_singleton h (fun hm => hk (KG.hasNode_iff.mpr hm))

theorem KG.ensureNode_of_has {g : KG} {k : GNode} (h : g.hasNode k = true) :
    g.ensureNode k = g := by
  rw [KG.ensureNode, if_pos h]

theorem KG.ensureNode_edges (g : KG) (k : GNode) : (g.ensureNode k).edges = g.edges := by
  rw [KG.ensureNode]
  by_cases h : g.hasNode k <;> simp [h]

theorem KG.addEdge_nodes (g : KG) (u v : GNode) (w : Frac) :
    (g.addEdge u v w).nodes = ((g.ensureNode u).ensureNode v).nodes := by
  rw [KG.addEdge]
  by_cases he : ((g.ensureNode u).ensureNode v).hasEdge u v <;> simp [he]

theorem KG.addEdge_nodes_of_present {g : KG} {u v : GNode} (w : Frac)
    (hu : g.hasNode u = true) (hv : g.hasNode v = true) :
    (g.addEdge u v w).nodes = g.nodes := by
  rw [KG.addEdge_nodes, KG.ensureNode_of_has hu, KG.ensureNode_of_has hv]

theorem KG.ensureNode_keys (g : KG) (k : GNode) :
    (g.ensureNode k).nodes.map (·.1) = g.nodes.map (·.1) ∨
    (g.ensureNode k).nodes.map (·.1) = g.nodes.map (·.1) ++ [k] := by
  rw [KG.ensureNode]
  by_cases h : g.hasNode k
  · left; rw [if_pos h]
  · right; rw [if_neg h]; simp

theorem KG.hasNode_ensureNode_mono {g : KG} {k k' : GNode}
    (h : g.hasNode k = true) : (g.ensureNode k').hasNode k = true := by
  rcases KG.ensureNode_keys g k' with h1 | h1
  · rw [KG.hasNode_iff, h1]; exact KG.hasNode_iff.mp h
  · rw [KG.hasNode_iff, h1]; exact List.mem_append_left _ (KG.hasNode_iff.mp h)

theorem KG.hasNode_addEdge_mono {g : KG} {u v k : GNode} {w : Frac}
    (h : g.hasNode k = true) : (g.addEdge u v w).hasNode k = true := by
  rw [KG.hasNode_iff, KG.addEdge_nodes]
  exact KG.hasNode_iff.mp (KG.hasNode_ensureNode_mono (KG.hasNode_ensureNode_mono h))

theorem KG.hasEdge_iff {g : KG} {u v : GNode} :
    g.hasEdge u v = true ↔ (u, v) ∈ g.edges.map (fun e => (e.1, e.2.1)) := by
  rw [KG.hasEdge, List.any_eq_true]
  constructor
  · rintro ⟨e, he, hp⟩
    simp only [Bool.and_eq_true, decide_eq_true_eq] at hp
    exact List.mem_map.mpr ⟨e, he, by rw [hp.1, hp.2]⟩
  · intro hm
    rcases List.mem_map.mp hm with ⟨e, he, hp⟩
    refine ⟨e, he, ?_⟩
    simp only [Bool.and_eq_true, decide_eq_true_eq]
    exact ⟨congrArg (·.1) hp, congrArg (·.2) hp⟩

theorem KG.addEdge_edge_keys_of_has {g : KG} {u v : GNode} (w : Frac)
    (he : ((g.ensureNode u).ensureNode v).hasEdge u v = true) :
    (g.addEdge u v w).edges.map (fun e => (e.1, e.2.1)) =
      g.edges.map (fun e => (e.1, e.2.1)) := by
  rw [KG.addEdge, if_pos he]
  simp only [List.map_map, KG.ensureNode_edges]
  refine List.map_congr_left (fun e _ => ?_)
  by_cases hp : e.1 = u ∧ e.2.1 = v
  · simp [Function.comp, hp, hp.1, hp.2]
  · simp [Function.comp, hp]

theorem KG.addEdge_edge_keys_of_not {g : KG} {u v : GNode} (w : Frac)
    (he : ¬ ((g.ensureNode u).ensureNode v).hasEdge u v = true) :
    (g.addEdge u v w).edges.map (fun e => (e.1, e.2.1)) =
      g.edges.map (fun e => (e.1, e.2.1)) ++ [(u, v)] := by
  rw [KG.addEdge, if_neg he]
  simp [KG.ensureNode_edges]

theorem KG.ensure_hasEdge_eq (g : KG) (k u v : GNode) :
    (g.ensureNode k).hasEdge u v = g.hasEdge u v := by
  rw [KG.hasEdge, KG.hasEdge, KG.ensureNode_edges]

theorem KG.addEdge_edge_nodup {g : KG} {u v : GNode} (w : Frac)
    (h : (g.edges.map (fun e => (e.1, e.2.1))).Nodup) :
    ((g.addEdge u v w).edges.map (fun e => (e.1, e.2.1))).Nodup := by
  by_cases he : ((g.ensureNode u).ensureNode v).hasEdge u v
  · rw [KG.addEdge_edge_keys_of_has w he]; exact h
  · rw [KG.addEdge_edge_keys_of_not w he]
    refine nodup_append_singleton h (fun hm => ?_)
    rw [KG.ensure_hasEdge_eq, KG.ensure_hasEdge_eq] at he
    exact he (KG.hasEdge_iff.mpr hm)

theorem KG.hasEdge_addEdge_self {g : KG} (u v : GNode) (w : Frac) :
    (g.addEdge u v w).hasEdge u v = true := by
  by_cases he : ((g.ensureNode u).ensureNode v).hasEdge u v
  · rw [KG.hasEdge_iff, KG.addEdge_edge_keys_of_has w he]
    rw [KG.ensure_hasEdge_eq, KG.ensure_hasEdge_eq] at he
    exact KG.hasEdge_iff.mp he
  · rw [KG.hasEdge_iff, KG.addEdge_edge_keys_of_not w he]
    simp

theorem KG.hasEdge_addEdge_mono {g : KG} {u v u' v' : GNode} {w : Frac}
    (h : g.hasEdge u' v' = true) : (g.addEdge u v w).hasEdge u' v' = true := by
  by_cases he : ((g.ensureNode u).ensureNode v).hasEdge u v
  · rw [KG.hasEdge_iff, KG.addEdge_edge_keys_of_has w he]
    exact KG.hasEdge_iff.mp h
  · rw [KG.hasEdge_iff, KG.addEdge_edge_keys_of_not w he]
    exact List.mem_append_left _ (KG.hasEdge_iff.mp h)

theorem KG.hasEdge_addNode_mono {g : KG} {u v k : GNode} {a : NAttrs}
    (h : g.hasEdge u v = true) : (g.addNode k a).hasEdge u v = true := by
  rw [KG.hasEdge, KG.addNode_edges]
  exact h

theorem KG.addEdge_weights {g : KG} {u v : GNode} {w : Frac}
    (h : ∀ e ∈ g.edges, e.2.2 = w) : ∀ e ∈ (g.addEdge u v w).edges, e.2.2 = w := by
  intro e he
  rw [KG.addEdge] at he
  by_cases hcond : ((g.ensureNode u).ensureNode v).hasEdge u v
  · rw [if_pos hcond] at he
    simp only [KG.ensureNode_edges] at he
    rcases List.mem_map.mp he with ⟨e0, he0, rfl⟩
    by_cases hp : e0.1 = u ∧ e0.2.1 = v
    · simp [hp]
    · simp only [hp, if_false]
      exact h e0 he0
  · rw [if_neg hcond] at he
    simp only [KG.ensureNode_edges] at he
    rcases List.mem_append.mp he with he0 | he0
    · exact h e he0
    · simp only [List.mem_singleton] at he0
      subst he0
      rfl

theorem foldl_preserve_mem {σ β : Type} (P : σ → Prop) (step : σ → β → σ) :
    ∀ (l : List β), (∀ g x, x ∈ l → P g → P (step g x)) →
    ∀ (g : σ), P g → P (l.foldl step g) := by
  intro l
  induction l with
  | nil => intro _ g hg; exact hg
  | cons y l ih =>
    intro h g hg
    exact ih (fun g x hx => h g x (List.mem_cons_of_mem y hx)) _
      (h g y (List.mem_cons_self y l) hg)

/-- The joint invariant of the graph build: node keys are duplicate-free,
every catalog course has its course node, skill-keyed nodes carry
`type='skill'`, edge (source, target) pairs are duplicate-free, and all edge
weights are 1.0. -/
def KGInv (courses : List Course) (g : KG) : Prop :=
  ((g.nodes.map (·.1)).Nodup) ∧
  (∀ c ∈ courses, g.hasNode (GNode.course c.id) = true) ∧
  (∀ p ∈ g.nodes, ∀ tg, p.1 = GNode.skill tg → p.2.ntype = some ['s','k','i','l','l']) ∧
  ((g.edges.map (fun e => (e.1, e.2.1))).Nodup) ∧
  (∀ e ∈ g.edges, e.2.2 = Frac.ofNat 1)

theorem KG.addNode_skill_attrs {g : KG} {k : GNode} {a : NAttrs}
    (hinv : ∀ p ∈ g.nodes, ∀ tg, p.1 = GNode.skill tg →
      p.2.ntype = some ['s','k','i','l','l'])
    (hk : (∀ tg, k ≠ GNode.skill tg) ∨ a.ntype = some ['s','k','i','l','l']) :
    ∀ p ∈ (g.addNode k a).nodes, ∀ tg, p.1 = GNode.skill tg →
      p.2.ntype = some ['s','k','i','l','l'] := by
  intro p hp tg hptg
  rw [KG.addNode] at hp
  by_cases h : g.hasNode k
  · rw [if_pos h] at hp
    rcases List.mem_map.mp hp with ⟨p0, hp0, rfl⟩
    by_cases hpk : p0.1 = k
    · rw [if_pos hpk] at hptg ⊢
      rcases hk with hk | hk
      · exact absurd hptg (hk tg)
      · exact hk
    · rw [if_neg hpk] at hptg ⊢
      exact hinv p0 hp0 tg hptg
  · rw [if_neg h] at hp
    rcases List.mem_append.mp hp with hp0 | hp0
    · exact hinv p hp0 tg hptg
    · simp only [List.mem_singleton] at hp0
      subst hp0
      simp only at hptg
      rcases hk with hk | hk
      · exact absurd hptg (hk tg)
      · exact hk

/-- The inner step of the tag loop: ensure the skill node exists with
`type='skill'`, then add the edge course → skill with weight 1.0. -/
def tagStep (cid : Nat) (g : KG) (t : Tag) : KG :=
  (if g.hasNode (GNode.skill t) then g
   else g.addNode (GNode.skill t) ⟨some ['s','k','i','l','l'], none, none⟩).addEdge
    (GNode.course cid) (GNode.skill t) (Frac.ofNat 1)

/-- The outer step of the second build loop: process all parsed tags of a
course (when its tag string is non-empty). -/
def courseStep (g : KG) (c : Course) : KG :=
  if c.tags ≠ [] then (parseTags c.tags).foldl (tagStep c.id) g else g

/-- The step of the first build loop: add the course node with its
attributes. -/
def courseNodeStep (g : KG) (c : Course) : KG :=
  g.addNode (GNode.course c.id)
    ⟨some ['c','o','u','r','s','e'], some c.title,
     some (if c.tags = [] then [] else splitComma c.tags)⟩

theorem buildKG_as_folds (courses : List Course) :
    buildKG courses =
      courses.foldl courseStep (courses.foldl courseNodeStep KG.empty) := by
  rw [buildKG]
  rfl

theorem tagStep_inv {courses : List Course} {c : Course} (hc : c ∈ courses) :
    ∀ (g : KG) (t : Tag), KGInv courses g → KGInv courses (tagStep c.id g t) := by
  intro g t hinv
  obtain ⟨h1, h2, h3, h4, h5⟩ := hinv
  rw [tagStep]
  set g' := if g.hasNode (GNode.skill t) then g
    else g.addNode (GNode.skill t) ⟨some ['s','k','i','l','l'], none, none⟩ with hg'
  have hg'1 : (g'.nodes.map (·.1)).Nodup := by
    rw [hg']
    by_cases h : g.hasNode (GNode.skill t)
    · rw [if_pos h]; exact h1
    · rw [if_neg h]; exact KG.addNode_nodup _ h1
  have hg'2 : ∀ c0 ∈ courses, g'.hasNode (GNode.course c0.id) = true := by
    intro c0 hc0
    rw [hg']
    by_cases h : g.hasNode (GNode.skill t)
    · rw [if_pos h]; exact h2 c0 hc0
    · rw [if_neg h]; exact KG.hasNode_addNode_mono _ (h2 c0 hc0)
  have hg'3 : ∀ p ∈ g'.nodes, ∀ tg, p.1 = GNode.skill tg →
      p.2.ntype = some ['s','k','i','l','l'] := by
    rw [hg']
    by_cases h : g.hasNode (GNode.skill t)
    · rw [if_pos h]; exact h3
    · rw [if_neg h]
      exact KG.addNode_skill_attrs h3 (Or.inr rfl)
  have hg'e : g'.edges = g.edges := by
    rw [hg']
    by_cases h : g.hasNode (GNode.skill t)
    · rw [if_pos h]
    · rw [if_neg h, KG.addNode_edges]
  have hcu : g'.hasNode (GNode.course c.id) = true := hg'2 c hc
  have hsv : g'.hasNode (GNode.skill t) = true := by
    rw [hg']
    by_cases h : g.hasNode (GNode.skill t)
    · rw [if_pos h]; exact h
    · rw [if_neg h]; exact KG.hasNode_addNode_self _
  have hnodes : (g'.addEdge (GNode.course c.id) (GNode.skill t) (Frac.ofNat 1)).nodes =
      g'.nodes := KG.addEdge_nodes_of_present _ hcu hsv
  refine ⟨?_, ?_, ?_, ?_, ?_⟩
  · rw [hnodes]; exact hg'1
  · intro c0 hc0
    rw [KG.hasNode_iff, hnodes]
    exact KG.hasNode_iff.mp (hg'2 c0 hc0)
  · rw [hnodes]; exact hg'3
  · refine KG.addEdge_edge_nodup _ ?_
    rw [hg'e]
    exact h4
  · refine KG.addEdge_weights ?_
    rw [hg'e]
    exact h5

theorem courseStep_inv {courses : List Course} {c : Course} (hc : c ∈ courses)
    (g : KG) (hinv : KGInv courses g) : KGInv courses (courseStep g c) := by
  rw [courseStep]
  by_cases h : c.tags ≠ []
  · rw [if_pos h]
    exact foldl_preserve (KGInv courses) (tagStep c.id)
      (fun g t hg => tagStep_inv hc g t hg) _ _ hinv
  · rw [if_neg h]
    exact hinv

theorem fold1_inv (courses : List Course) :
    KGInv courses (courses.foldl courseNodeStep KG.empty) := by
  refine ⟨?_, ?_, ?_, ?_, ?_⟩
  · refine foldl_preserve (fun g => (g.nodes.map (·.1)).Nodup) courseNodeStep
      (fun g c hg => KG.addNode_nodup _ hg) _ _ ?_
    simp [KG.empty]
  · intro c hc
    exact foldl_establish (fun g => g.hasNode (GNode.course c.id) = true) courseNodeStep c
      (fun g => KG.hasNode_addNode_self _)
      (fun g y hg => KG.hasNode_addNode_mono _ hg) _ _ hc
  · refine foldl_preserve
      (fun g => ∀ p ∈ g.nodes, ∀ tg, p.1 = GNode.skill tg →
        p.2.ntype = some ['s','k','i','l','l'])
      courseNodeStep
      (fun g c hg => KG.addNode_skill_attrs hg
        (Or.inl (fun tg h => GNode.noConfusion h))) _ _ ?_
    simp [KG.empty]
  · have hedges : (courses.foldl courseNodeStep KG.empty).edges = [] :=
      foldl_preserve (fun g => g.edges = []) courseNodeStep
        (fun g c hg => by
          show (g.addNode (GNode.course c.id) _).edges = []
          rw [KG.addNode_edges]
          exact hg) courses KG.empty rfl
    rw [hedges]
    simp
  · have hedges : (courses.foldl courseNodeStep KG.empty).edges = [] :=
      foldl_preserve (fun g => g.edges = []) courseNodeStep
        (fun g c hg => by
          show (g.addNode (GNode.course c.id) _).edges = []
          rw [KG.addNode_edges]
          exact hg) courses KG.empty rfl
    rw [hedges]
    intro e he
    exact absurd he (List.not_mem_nil e)

theorem buildKG_inv (courses : List Course) : KGInv courses (buildKG courses) := by
  rw [buildKG_as_folds]
  exact foldl_preserve_mem (KGInv courses) courseStep courses
    (fun g c hc hg => courseStep_inv hc g hg) _ (fold1_inv courses)

theorem tagStep_mono {cid : Nat} {u v : GNode} {t : Tag} {g : KG}
    (h : g.hasEdge u v = true) : (tagStep cid g t).hasEdge u v = true := by
  rw [tagStep]
  refine KG.hasEdge_addEdge_mono ?_
  by_cases hs : g.hasNode (GNode.skill t)
  · rw [if_pos hs]; exact h
  · rw [if_neg hs]; exact KG.hasEdge_addNode_mono h

theorem tagStep_node_mono {cid : Nat} {k : GNode} {t : Tag} {g : KG}
    (h : g.hasNode k = true) : (tagStep cid g t).hasNode k = true := by
  rw [tagStep]
  refine KG.hasNode_addEdge_mono ?_
  by_cases hs : g.hasNode (GNode.skill t)
  · rw [if_pos hs]; exact h
  · rw [if_neg hs]; exact KG.hasNode_addNode_mono _ h

theorem courseStep_mono {u v : GNode} {g : KG} {c : Course}
    (h : g.hasEdge u v = true) : (courseStep g c).hasEdge u v = true := by
  rw [courseStep]
  by_cases htags : c.tags ≠ []
  · rw [if_pos htags]
    exact foldl_preserve (fun g => g.hasEdge u v = true) (tagStep c.id)
      (fun g t hg => tagStep_mono hg) _ _ h
  · rw [if_neg htags]
    exact h

theorem buildKG_edge_present {courses : List Course} {c : Course} {t : Tag}
    (hc : c ∈ courses) (htags : c.tags ≠ []) (ht : t ∈ parseTags c.tags) :
    (buildKG courses).hasEdge (GNode.course c.id) (GNode.skill t) = true := by
  rw [buildKG_as_folds]
  refine foldl_establish (fun g => g.hasEdge (GNode.course c.id) (GNode.skill t) = true)
    courseStep c ?_ ?_ courses _ hc
  · intro g
    rw [courseStep, if_pos htags]
    refine foldl_establish (fun g => g.hasEdge (GNode.course c.id) (GNode.skill t) = true)
      (tagStep c.id) t ?_ ?_ _ _ ht
    · intro g
      rw [tagStep]
      exact KG.hasEdge_addEdge_self _ _ _
    · intro g y hg
      exact tagStep_mono hg
  · intro g y hg
    exact courseStep_mono hg

theorem buildKG_skill_present {courses : List Course} {c : Course} {t : Tag}
    (hc : c ∈ courses) (htags : c.tags ≠ []) (ht : t ∈ parseTags c.tags) :
    (buildKG courses).hasNode (GNode.skill t) = true := by
  rw [buildKG_as_folds]
  refine foldl_establish (fun g => g.hasNode (GNode.skill t) = true)
    courseStep c ?_ ?_ courses _ hc
  · intro g
    rw [courseStep, if_pos htags]
    refine foldl_establish (fun g => g.hasNode (GNode.skill t) = true)
      (tagStep c.id) t ?_ ?_ _ _ ht
    · intro g
      rw [tagStep]
      refine KG.hasNode_addEdge_mono ?_
      by_cases hs : g.hasNode (GNode.skill t)
      · rw [if_pos hs]
        exact hs
      · rw [if_neg hs]
        exact KG.hasNode_addNode_self _
    · intro g y hg
      exact tagStep_node_mono hg
  · intro g y hg
    rw [courseStep]
    by_cases hy : y.tags ≠ []
    · rw [if_pos hy]
      exact foldl_preserve (fun g => g.hasNode (GNode.skill t) = true) (tagStep y.id)
        (fun g t0 hg0 => tagStep_node_mono hg0) _ _ hg
    · rw [if_neg hy]
      exact hg

/-- Claim C8: after building the knowledge graph, for every course in the
catalog and every tag it declares (comma-split, whitespace-trimmed,
lower-cased), there is exactly one skill node for that tag string (hence
shared by all courses declaring it) carrying `type='skill'`, exactly one edge
from the course node to that skill node, and every edge of the graph has
weight 1.0 — in particular no duplicate edge arises when a tag repeats
within one course's tag list. -/
theorem C8_graph_build_skill_and_edge_uniqueness :
    ∀ (courses : List Course) (c : Course) (t : Tag),
    c ∈ courses → c.tags ≠ [] → t ∈ parseTags c.tags →
    ((buildKG courses).nodes.filter (fun p => p.1 = GNode.skill t)).length = 1 ∧
    ((buildKG courses).nodes.find? (fun p => p.1 = GNode.skill t)).map (fun p => p.2.ntype) =
      some (some ['s','k','i','l','l']) ∧
    ((buildKG courses).edges.filter
        (fun e => (e.1, e.2.1) = (GNode.course c.id, GNode.skill t))).length = 1 ∧
    (∀ e ∈ (buildKG courses).edges, e.2.2 = Frac.ofNat 1) := by
  intro courses c t hc htags ht
  obtain ⟨h1, h2, h3, h4, h5⟩ := buildKG_inv courses
  have hskill := buildKG_skill_present hc htags ht
  have hedge := buildKG_edge_present hc htags ht
  refine ⟨?_, ?_, ?_, h5⟩
  · exact filter_key_length_one (fun p : GNode × NAttrs => p.1) (GNode.skill t) _ h1
      (KG.hasNode_iff.mp hskill)
  · have hmem : GNode.skill t ∈ (buildKG courses).nodes.map (·.1) :=
      KG.hasNode_iff.mp hskill
    rcases List.mem_map.mp hmem with ⟨p, hp, hpk⟩
    cases hfind : (buildKG courses).nodes.find? (fun p => p.1 = GNode.skill t) with
    | none =>
      exfalso
      have hnone := List.find?_eq_none.mp hfind p hp
      simp only [decide_eq_true_eq] at hnone
      exact hnone hpk
    | some q =>
      have hq1 : q.1 = GNode.skill t := by
        have hqq := List.find?_some hfind
        simpa using hqq
      have hq2 : q ∈ (buildKG courses).nodes := List.mem_of_find?_eq_some hfind
      simp only [Option.map_some']
      rw [h3 q hq2 t hq1]
  · exact filter_key_length_one (fun e : GNode × GNode × Frac => (e.1, e.2.1))
      (GNode.course c.id, GNode.skill t) _ h4 (KG.hasEdge_iff.mp hedge)

def coursePythonWeb : Course := ⟨7, ['W'], ['p','y','t','h','o','n',',',' ','w','e','b']⟩

theorem C8_witness :
    coursePythonWeb ∈ [coursePythonWeb] ∧
    coursePythonWeb.tags ≠ [] ∧
    pythonTag ∈ parseTags coursePythonWeb.tags ∧
    (((buildKG [coursePythonWeb]).nodes.filter
        (fun p => p.1 = GNode.skill pythonTag)).length = 1 ∧
     ((buildKG [coursePythonWeb]).nodes.find?
        (fun p => p.1 = GNode.skill pythonTag)).map (fun p => p.2.ntype) =
       some (some ['s','k','i','l','l']) ∧
     ((buildKG [coursePythonWeb]).edges.filter
        (fun e => (e.1, e.2.1) = (GNode.course 7, GNode.skill pythonTag))).length = 1 ∧
     (∀ e ∈ (buildKG [coursePythonWeb]).edges, e.2.2 = Frac.ofNat 1)) :=
  ⟨by decide, by decide, by decide,
   C8_graph_build_skill_and_edge_uniqueness [coursePythonWeb] coursePythonWeb pythonTag
     (by decide) (by decide) (by decide)⟩

/-! ## C7 -/

theorem frac_lev_eq_false_of_ltv {a b : Frac} (h : Frac.ltv a b = true) :
    Frac.lev b a = false := by
  rw [Frac.ltv] at h
  rw [Frac.lev]
  simp only [decide_eq_true_eq] at h
  simp only [decide_eq_false_iff_not]
  omega

theorem frac_lev_of_ltv {a b : Frac} (h : Frac.ltv a b = true) :
    Frac.lev a b = true := by
  rw [Frac.ltv] at h
  rw [Frac.lev]
  simp only [decide_eq_true_eq] at h ⊢
  omega

theorem SimVal.lev_eq_false_of_ltv {a b : SimVal} (h : SimVal.ltv a b = true) :
    SimVal.lev b a = false := by
  rw [SimVal.ltv] at h
  rw [SimVal.lev]
  exact frac_lev_eq_false_of_ltv h

theorem SimVal.lev_of_ltv {a b : SimVal} (h : SimVal.ltv a b = true) :
    SimVal.lev a b = true := by
  rw [SimVal.ltv] at h
  rw [SimVal.lev]
  exact frac_lev_of_ltv h

/-- Claim C7 counterexample: students 1 and 2 have identical quiz-performance
rows, so their cosine similarity is 1.0 and student 2 ties the requester's
self-similarity.  `sort_values(ascending=False)` reverses a stable ascending
argsort, so the tie comes out with student 2 first; `[1:6]` then drops
student 2 — the most similar other student — and pools from the requester
itself.  The selected peers of requester 1 are `[1]`, not `[2]` as the claim
requires. -/
theorem C7_counterexample_tie_selects_self :
    (cosSim (rowVec dbTwins 2) (rowVec dbTwins 1)).isOne = true ∧
    2 ∈ matrixIndex dbTwins ∧
    (selectedPeers dbTwins 1).map (·.1) = [1] := by
  decide

theorem filter_ne_self {l : List Nat} {s : Nat} (h : s ∉ l) :
    l.filter (fun t => t ≠ s) = l := by
  induction l with
  | nil => rfl
  | cons a l ih =>
    have ha : a ≠ s := by
      rintro rfl
      exact h (List.mem_cons_self a l)
    have h' : s ∉ l := fun hmem => h (List.mem_cons_of_mem a hmem)
    rw [List.filter_cons, if_pos (decide_eq_true ha), ih h']

theorem filter_ne_cons_self {l : List Nat} {s : Nat} (h : s ∉ l) :
    (s :: l).filter (fun t => t ≠ s) = l := by
  rw [List.filter_cons, if_neg (by simp), filter_ne_self h]

/-- The pooled candidate set of the collaborative filter contains exactly
the courses scored above 70 by a selected peer whose similarity exceeds the
0.1 threshold: peers at or below the threshold contribute nothing. -/
theorem candidateList_mem_iff {db : DB} {s : Nat} (cid : Nat) :
    cid ∈ candidateList db s ↔
      ∃ p ∈ selectedPeers db s, p.2.gtTenth = true ∧ cid ∈ topCoursesOf db p.1 := by
  rw [candidateList, mem_setAsc]
  have h : ∀ (l : List (Nat × SimVal)) (acc : List Nat),
      cid ∈ l.foldl (fun acc p => if p.2.gtTenth then acc ++ topCoursesOf db p.1 else acc)
        acc ↔
      cid ∈ acc ∨ ∃ p ∈ l, p.2.gtTenth = true ∧ cid ∈ topCoursesOf db p.1 := by
    intro l
    induction l with
    | nil => intro acc; simp
    | cons q l ih =>
      intro acc
      rw [List.foldl_cons, ih]
      by_cases hq : q.2.gtTenth
      · simp [hq, List.mem_append]
        tauto
      · simp [hq]
  rw [h]
  simp

/-- Students 1 and 2 with disjoint quiz histories (orthogonal rows), so the
requester's self-similarity is the unique maximum of its column. -/
def dbDistinctRows : DB :=
  ⟨[⟨10, ['T'], []⟩, ⟨20, ['T'], []⟩],
   [⟨1, ⟨10, ['T'], []⟩, 80⟩, ⟨2, ⟨20, ['T'], []⟩, 90⟩], [], []⟩

/-- Claim C7 (amended): the code pools courses from the entries at positions
1–5 of the similarity column sorted descending, where pandas' descending sort
reverses a stable ascending argsort (ties in reverse index order), and only
selected peers with similarity strictly above 0.1 contribute courses — the
candidate set is exactly the union of the above-threshold selected peers'
courses with matrix score above 70.  Whenever the requester's self-similarity
strictly exceeds every other student's similarity — in particular whenever no
other student ties at 1.0 — the selected peers are the 5 most similar other
students ranked descending, as the original claim states.  Two identical
nonzero rows still have cosine similarity exactly 1.0, but the tie makes the
selection asymmetric: the larger-id student of an identical pair selects the
smaller-id one as its top peer, while the smaller-id student's selection
keeps itself and omits its identical peer. -/
theorem C7_amended_peer_selection :
    ∀ (db : DB) (s : Nat) (u : List Frac),
    s ∈ matrixIndex db →
    (∀ t ∈ matrixIndex db, t ≠ s →
      SimVal.ltv (cosSim (rowVec db t) (rowVec db s))
        (cosSim (rowVec db s) (rowVec db s)) = true) →
    (dotF u u).isZero = false →
    (selectedPeers db s = ((sortedColumn db s).drop 1).take 5) ∧
    (∀ cid : Nat, cid ∈ candidateList db s ↔
      ∃ p ∈ selectedPeers db s, p.2.gtTenth = true ∧ cid ∈ topCoursesOf db p.1) ∧
    (selectedPeers db s =
      ((insSortBy pairLe (((matrixIndex db).filter (fun t => t ≠ s)).map
        (fun t => (t, cosSim (rowVec db t) (rowVec db s))))).reverse).take 5) ∧
    (cosSim u u).isOne = true ∧
    (selectedPeers dbTwins 2).map (·.1) = [1] ∧
    (selectedPeers dbTwins 1).map (·.1) = [1] := by
  intro db s u hs hdom hu
  refine ⟨rfl, fun cid => candidateList_mem_iff cid, ?_, ?_, by decide, by decide⟩
  · -- part (a): self is the unique strict maximum of the column
    have hnd : (matrixIndex db).Nodup := nodup_setAsc _
    rcases List.mem_iff_append.mp hs with ⟨I1, I2, hI⟩
    have hnd' := hI ▸ hnd
    rcases List.nodup_append.mp hnd' with ⟨hnd1, hnd2, hdisj⟩
    have hs1 : s ∉ I1 := fun hmem => hdisj hmem (List.mem_cons_self s I2)
    have hs2 : s ∉ I2 := (List.nodup_cons.mp hnd2).1
    have hcol : simColumn db s =
        I1.map (fun t => (t, cosSim (rowVec db t) (rowVec db s))) ++
        (s, cosSim (rowVec db s) (rowVec db s)) ::
        I2.map (fun t => (t, cosSim (rowVec db t) (rowVec db s))) := by
      rw [simColumn, hI]
      simp
    have hmax : ∀ b ∈ I1.map (fun t => (t, cosSim (rowVec db t) (rowVec db s))) ++
        I2.map (fun t => (t, cosSim (rowVec db t) (rowVec db s))),
        pairLe (s, cosSim (rowVec db s) (rowVec db s)) b = false ∧
        pairLe b (s, cosSim (rowVec db s) (rowVec db s)) = true := by
      intro b hb
      have hbt : ∃ t, (t ∈ I1 ∨ t ∈ I2) ∧
          b = (t, cosSim (rowVec db t) (rowVec db s)) := by
        rcases List.mem_append.mp hb with hb1 | hb1
        · rcases List.mem_map.mp hb1 with ⟨t, ht, rfl⟩
          exact ⟨t, Or.inl ht, rfl⟩
        · rcases List.mem_map.mp hb1 with ⟨t, ht, rfl⟩
          exact ⟨t, Or.inr ht, rfl⟩
      rcases hbt with ⟨t, htmem, rfl⟩
      have htI : t ∈ matrixIndex db := by
        rw [hI]
        rcases htmem with ht | ht
        · exact List.mem_append_left _ ht
        · exact List.mem_append_right _ (List.mem_cons_of_mem s ht)
      have htne : t ≠ s := by
        rintro rfl
        rcases htmem with ht | ht
        · exact hs1 ht
        · exact hs2 ht
      have hlt := hdom t htI htne
      exact ⟨SimVal.lev_eq_false_of_ltv hlt, SimVal.lev_of_ltv hlt⟩
    have hsort := @insSortBy_unique_max (Nat × SimVal) pairLe
      (s, cosSim (rowVec db s) (rowVec db s))
      (I1.map (fun t => (t, cosSim (rowVec db t) (rowVec db s))))
      (I2.map (fun t => (t, cosSim (rowVec db t) (rowVec db s)))) hmax
    have hfilter : (matrixIndex db).filter (fun t => t ≠ s) = I1 ++ I2 := by
      rw [hI, List.filter_append, filter_ne_self hs1, filter_ne_cons_self hs2]
    rw [selectedPeers, sortedColumn, hcol, hsort, hfilter, List.map_append,
      List.reverse_append]
    simp
  · -- part (b): identical nonzero rows have cosine similarity exactly 1
    have hnum : (dotF u u).num ≠ 0 := by
      rw [Frac.isZero] at hu
      simpa using hu
    rw [cosSim]
    simp only [hu, Bool.or_self, Bool.false_eq_true, if_false]
    rw [SimVal.isOne]
    simp only [Frac.eqv, Frac.mul, Bool.and_eq_true, decide_eq_true_eq]
    exact ⟨trivial, Nat.pos_of_ne_zero hnum⟩

theorem C7_witness :
    1 ∈ matrixIndex dbDistinctRows ∧
    selectedPeers dbDistinctRows 1 = ((sortedColumn dbDistinctRows 1).drop 1).take 5 ∧
    selectedPeers dbDistinctRows 1 =
      ((insSortBy pairLe (((matrixIndex dbDistinctRows).filter (fun t => t ≠ 1)).map
        (fun t => (t, cosSim (rowVec dbDistinctRows t) (rowVec dbDistinctRows 1))))).reverse).take
        5 ∧
    (cosSim [Frac.ofNat 80] [Frac.ofNat 80]).isOne = true ∧
    (selectedPeers dbTwins 2).map (·.1) = [1] ∧
    (selectedPeers dbTwins 1).map (·.1) = [1] ∧
    10 ∉ candidateList dbDistinctRows 1 := by
  obtain ⟨h1, h2, h3, h4, h5, h6⟩ :=
    C7_amended_peer_selection dbDistinctRows 1 [Frac.ofNat 80]
      (by decide) (by decide) (by decide)
  refine ⟨by decide, h1, h3, h4, h5, h6, ?_⟩
  intro hmem
  have hnot : ¬ ∃ p ∈ selectedPeers dbDistinctRows 1,
      p.2.gtTenth = true ∧ 10 ∈ topCoursesOf dbDistinctRows p.1 := by decide
  exact hnot ((h2 10).mp hmem)
